import Mathlib

/-!
Verification of the ownfoil-rs content server core against its
natural-language specification.

The development is a shallow embedding of the Rust sources:
strings are `List Char` (Rust `&str` viewed as a sequence of chars; all
operations used by the code — `starts_with`, `contains`, `split_once`,
slicing at an ASCII boundary, numeric parsing — act identically on the
two views), file bodies are `List Nat` (byte sequences), `u64`/`u32`
arithmetic is `Nat` with explicit bounds where overflow can matter, and
fallible Rust functions returning `Result` become `Except`.
-/

deriving instance DecidableEq for Except

namespace Ownfoil

/-! ## Character classes (ASCII, as used by the Rust code) -/

/-- Rust `char::is_ascii_digit` / the regex class `\d` restricted to ASCII
(`0`-`9`), which is the only digit set the crate feeds to `parse`. -/
def isDigitChar (c : Char) : Bool :=
  decide (48 ≤ c.toNat) && decide (c.toNat ≤ 57)

/-- Rust `char::is_ascii_hexdigit`: `0`-`9`, `a`-`f`, `A`-`F`. -/
def isHexDigitChar (c : Char) : Bool :=
  (decide (48 ≤ c.toNat) && decide (c.toNat ≤ 57)) ||
  (decide (97 ≤ c.toNat) && decide (c.toNat ≤ 102)) ||
  (decide (65 ≤ c.toNat) && decide (c.toNat ≤ 70))

/-- The ASCII restriction `[0-9A-Za-z_]` of the regex word class `\w`.
The regex crate's `\w` is Unicode-aware by default and agrees with this
predicate exactly on ASCII characters, so the version-extraction theorems
below quantify only over all-ASCII inputs, where the two coincide. -/
def isWordChar (c : Char) : Bool :=
  (decide (48 ≤ c.toNat) && decide (c.toNat ≤ 57)) ||
  (decide (65 ≤ c.toNat) && decide (c.toNat ≤ 90)) ||
  (decide (97 ≤ c.toNat) && decide (c.toNat ≤ 122)) ||
  decide (c.toNat = 95)

/-! ## Unsigned decimal parsing (Rust `str::parse::<u64>` / `<u32>`) -/

/-- Value of a list of decimal digits, most significant first. -/
def digitsVal (ds : List Char) : Nat :=
  ds.foldl (fun acc c => acc * 10 + (c.toNat - 48)) 0

/-- Rust `str::parse::<u64>`: an optional leading `+`, then one or more
decimal digits, rejecting values that do not fit in 64 bits. -/
def parseU64 (s : List Char) : Option Nat :=
  let ds := match s with
    | '+' :: rest => rest
    | _ => s
  if ds = [] then none
  else if ds.all isDigitChar then
    if digitsVal ds < 18446744073709551616 then some (digitsVal ds) else none
  else none

/-- Rust `str::split_once`: split at the first occurrence of `sep`. -/
def splitOnce (sep : Char) : List Char → Option (List Char × List Char)
  | [] => none
  | c :: rest =>
    if c = sep then some ([], rest)
    else match splitOnce sep rest with
      | none => none
      | some (l, r) => some (c :: l, r)

/-! ## serve_files.rs -/

/-- The error enum `FileServeError` of `serve_files.rs` (payloads of the
`Io` and `HeaderValue` variants are irrelevant to control flow and dropped). -/
inductive FileServeError where
  | invalidPath
  | notFound
  | invalidRange
  | io
  | headerValue
  deriving DecidableEq

/-- The `ByteRange` struct: inclusive `start`/`end` offsets (`end` is a Lean
keyword, so the field is called `stop`). -/
structure ByteRange where
  start : Nat
  stop : Nat
  deriving DecidableEq

/-- `ByteRange::len`: `end.saturating_sub(start).saturating_add(1)`.
`Nat` subtraction is saturating; the saturating increment can only differ
from `+ 1` at `u64::MAX`, which no real range length reaches. -/
def ByteRange.len (r : ByteRange) : Nat :=
  (r.stop - r.start) + 1

/-- The literal `"bytes="` checked by `parse_range_header`. -/
def bytesEqToken : List Char := ['b', 'y', 't', 'e', 's', '=']

/-- `parse_range_header` from `serve_files.rs`, translated clause by clause:
reject empty files and headers not starting with `bytes=`; slice off the
6-byte marker; reject range lists (`,`); split at the first `-`; then the
suffix (`bytes=-N`), open-ended (`bytes=N-`) and closed (`bytes=N-M`)
forms, with the final bounds check of the last two forms. -/
def parse_range_header (value : List Char) (file_size : Nat) :
    Except FileServeError ByteRange :=
  if file_size = 0 ∨ ¬ bytesEqToken.isPrefixOf value then .error .invalidRange
  else if ',' ∈ value.drop 6 then .error .invalidRange
  else
    match splitOnce '-' (value.drop 6) with
    | none => .error .invalidRange
    | some (rawStart, rawEnd) =>
      if rawStart = [] then
        match parseU64 rawEnd with
        | none => .error .invalidRange
        | some suffix =>
          if suffix = 0 then .error .invalidRange
          else .ok { start := file_size - suffix, stop := file_size - 1 }
      else
        match parseU64 rawStart with
        | none => .error .invalidRange
        | some start =>
          match (if rawEnd = [] then some (file_size - 1) else parseU64 rawEnd) with
          | none => .error .invalidRange
          | some stop =>
            if start ≥ file_size ∨ stop ≥ file_size ∨ start > stop then
              .error .invalidRange
            else .ok { start := start, stop := stop }

/-- Response metadata and body as assembled by `stream_with_range_support`:
status code, the `Content-Length`, `Content-Range` and `Accept-Ranges`
headers (absent headers are `none`/`false`), and the streamed body. -/
structure HttpResponse where
  status : Nat
  contentLength : Option Nat
  contentRange : Option (List Char)
  acceptRanges : Bool
  body : List Nat
  deriving DecidableEq

/-- Decimal rendering of a number, as Rust `format!` prints a `u64`. -/
def natChars (n : Nat) : List Char := (Nat.repr n).data

/-- The `format!("bytes {}-{}/{}", start, end, size)` header value. -/
def contentRangeValue (s e size : Nat) : List Char :=
  "bytes ".data ++ natChars s ++ ['-'] ++ natChars e ++ ['/'] ++ natChars size

/-- The `format!("bytes */{file_size}")` header value of a 416 response. -/
def contentRangeUnsat (size : Nat) : List Char :=
  "bytes */".data ++ natChars size

/-- `stream_with_range_support` from `serve_files.rs` for an existing
regular file, given the file bytes and the `Range` header when one is
present (path resolution, `metadata` lookup and the progress-logging
wrapper do not affect status, headers or bytes and live outside this
model). A parsed range seeks to `start` and reads `len` bytes
(`file.take`), an invalid range returns 416 early with only a
`Content-Range: bytes */size` header, and no header streams the file
whole. -/
def stream_with_range_support (content : List Nat) (rangeHeader : Option (List Char)) :
    HttpResponse :=
  let file_size := content.length
  match rangeHeader.map (fun v => parse_range_header v file_size) with
  | some (.ok r) =>
    { status := 206
      contentLength := some r.len
      contentRange := some (contentRangeValue r.start r.stop file_size)
      acceptRanges := true
      body := (content.drop r.start).take r.len }
  | some (.error _) =>
    { status := 416
      contentLength := none
      contentRange := some (contentRangeUnsat file_size)
      acceptRanges := false
      body := [] }
  | none =>
    { status := 200
      contentLength := some file_size
      contentRange := none
      acceptRanges := true
      body := content }

/-! ## Path sanitation (`sanitize_relative_path`) -/

/-- Split a character list at every occurrence of `sep` (the pieces of a
path between `/` separators, before dropping empty pieces). -/
def splitChar (sep : Char) : List Char → List (List Char)
  | [] => [[]]
  | c :: rest =>
    if c = sep then [] :: splitChar sep rest
    else match splitChar sep rest with
      | [] => [[c]]
      | p :: ps => (c :: p) :: ps

/-- The component list of a Unix relative path as `Path::components` yields
it: the non-empty pieces between `/` separators. (`.` pieces surface as
`CurDir` components; the caller below treats them exactly as the skipped
interior `.` pieces, so keeping them here is observationally faithful.) -/
def pathComponents (s : List Char) : List (List Char) :=
  (splitChar '/' s).filter (fun c => !c.isEmpty)

/-- The component loop of `sanitize_relative_path`: `Normal` components are
pushed, `CurDir` (`.`) is skipped, `ParentDir` (`..`) aborts (on Unix,
`RootDir`/`Prefix` cannot occur once leading slashes are stripped), and an
empty result is rejected. -/
def sanitizeGo : List (List Char) → List (List Char) →
    Except FileServeError (List (List Char))
  | [], acc => if acc = [] then .error .invalidPath else .ok acc
  | comp :: rest, acc =>
    if comp = ['.'] then sanitizeGo rest acc
    else if comp = ['.', '.'] then .error .invalidPath
    else sanitizeGo rest (acc ++ [comp])

/-- `sanitize_relative_path` from `serve_files.rs`: strip leading `/`
(`trim_start_matches`), walk the components, return the sanitized
component list. -/
def sanitize_relative_path (requested : List Char) :
    Except FileServeError (List (List Char)) :=
  sanitizeGo (pathComponents (requested.dropWhile (fun c => c = '/'))) []

/-- The invalidity conditions exactly as the spec words them (C3): empty
file, missing `bytes=` marker, a range list, a missing `-` separator, an
unparsable numeric field, a zero suffix length, or resolved bounds outside
the file. -/
def invalidRangeSpec (value : List Char) (S : Nat) : Prop :=
  S = 0 ∨
  ¬ bytesEqToken.isPrefixOf value ∨
  ',' ∈ value.drop 6 ∨
  '-' ∉ value.drop 6 ∨
  (∃ rawStart rawEnd, splitOnce '-' (value.drop 6) = some (rawStart, rawEnd) ∧
    ((rawStart = [] ∧ (parseU64 rawEnd = none ∨ parseU64 rawEnd = some 0)) ∨
     (rawStart ≠ [] ∧ parseU64 rawStart = none) ∨
     (rawStart ≠ [] ∧ rawEnd ≠ [] ∧ parseU64 rawEnd = none) ∨
     (rawStart ≠ [] ∧ ∃ s e, parseU64 rawStart = some s ∧
       (if rawEnd = [] then some (S - 1) else parseU64 rawEnd) = some e ∧
       (S ≤ s ∨ S ≤ e ∨ e < s))))

/-! ## catalog.rs: data model -/

/-- The `ContentKind` enum: content type derived from the title-id suffix. -/
inductive ContentKind where
  | Base
  | Update
  | Dlc
  | Unknown
  deriving DecidableEq

/-- The `ContentFile` struct (paths and names as character lists). -/
structure ContentFile where
  relative_path : List Char
  name : List Char
  size : Nat
  title_id : Option (List Char)
  version : Option Nat
  kind : ContentKind
  deriving DecidableEq

/-- The `TitleVersions` struct: all files for one title id. -/
structure TitleVersions where
  title_id : List Char
  files : List ContentFile
  deriving DecidableEq

/-- The `Catalog` struct: the sorted file list plus the title-id map.
`BTreeMap<String, Vec<usize>>` is only ever consulted through `get`, so an
association list with unique keys carries exactly the observable state. -/
structure Catalog where
  files : List ContentFile
  titles : List (List Char × List Nat)
  deriving DecidableEq

/-- The result struct of `parse_filename_metadata` (the `[char; 16]` title
id is a 16-element character list). -/
structure ParsedFilename where
  title_id : Option (List Char)
  version : Option Nat
  deriving DecidableEq

/-! ## catalog.rs: the sort comparator

Rust `Ord`: `Option::cmp` puts `None` below any `Some`; `String`/`char`
compare lexicographically by scalar value (UTF-8 byte order coincides with
code-point order); `u32` compares numerically; `Ordering::then` chains. -/

/-- Rust `u64`/`u32`/`usize` comparison. -/
def natCmp (a b : Nat) : Ordering :=
  if a < b then .lt else if a = b then .eq else .gt

/-- Rust `char` comparison (by Unicode scalar value). -/
def charCmp (a b : Char) : Ordering := natCmp a.toNat b.toNat

/-- Rust `String` comparison: lexicographic, shorter-is-smaller on ties. -/
def listCharCmp : List Char → List Char → Ordering
  | [], [] => .eq
  | [], _ :: _ => .lt
  | _ :: _, [] => .gt
  | a :: as, b :: bs => (charCmp a b).then (listCharCmp as bs)

/-- Rust `Option::cmp`: `None` sorts before any `Some`. -/
def optionCmp (cmp : α → α → Ordering) : Option α → Option α → Ordering
  | none, none => .eq
  | none, some _ => .lt
  | some _, none => .gt
  | some a, some b => cmp a b

/-- The comparator of `Catalog::from_files`:
`title_id.cmp(..).then(version.cmp(..)).then(name.cmp(..))`. -/
def fileCmp (l r : ContentFile) : Ordering :=
  (optionCmp listCharCmp l.title_id r.title_id).then
    ((optionCmp natCmp l.version r.version).then (listCharCmp l.name r.name))

/-- The non-strict order induced by `fileCmp` (what a sort by `fileCmp`
guarantees between neighbours). -/
def fileLe (l r : ContentFile) : Prop := fileCmp l r ≠ Ordering.gt

instance : DecidableRel fileLe := fun l r => by
  unfold fileLe
  infer_instance

/-! ## catalog.rs: Catalog construction and queries -/

/-- One `titles.entry(key).or_default().push(idx)` step of
`Catalog::from_files`. -/
def titlesInsert : List (List Char × List Nat) → List Char → Nat →
    List (List Char × List Nat)
  | [], k, i => [(k, [i])]
  | (k2, is) :: rest, k, i =>
    if k2 = k then (k2, is ++ [i]) :: rest
    else (k2, is) :: titlesInsert rest k i

/-- `BTreeMap::get` on the modelled title map. -/
def titlesLookup : List (List Char × List Nat) → List Char → Option (List Nat)
  | [], _ => none
  | (k2, is) :: rest, k => if k2 = k then some is else titlesLookup rest k

/-- The `for (idx, file) in files.iter().enumerate()` loop of
`Catalog::from_files`, carrying the running index. -/
def buildTitles : Nat → List ContentFile → List (List Char × List Nat) →
    List (List Char × List Nat)
  | _, [], m => m
  | i, f :: fs, m =>
    buildTitles (i + 1) fs
      (match f.title_id with
        | some t => titlesInsert m t i
        | none => m)

/-- Specification helper for `buildTitles`: the indices (from offset `i`)
of the files carrying title id `k`, in order. -/
def picksFrom (i : Nat) (fs : List ContentFile) (k : List Char) : List Nat :=
  match fs with
  | [] => []
  | f :: rest =>
    if f.title_id = some k then i :: picksFrom (i + 1) rest k
    else picksFrom (i + 1) rest k

/-- `Catalog::from_files`: sort by `(title_id, version, name)` and build the
title map. `Vec::sort_by` is a stable sort and a stable sort's output is
uniquely determined by the comparator, so the structurally recursive stable
insertion sort is an exact model of it. -/
def Catalog.from_files (files : List ContentFile) : Catalog :=
  let sorted := List.insertionSort fileLe files
  { files := sorted, titles := buildTitles 0 sorted [] }

/-- `Catalog::versions`: uppercase the queried id, look it up, and collect
the indexed files (`indices.iter().filter_map(|i| self.files.get(*i))`). -/
def Catalog.versions (c : Catalog) (title_id : List Char) : Option TitleVersions :=
  let key := title_id.map Char.toUpper
  (titlesLookup c.titles key).map (fun indices =>
    { title_id := key
      files := indices.filterMap (fun i => c.files[i]?) })

/-! ## catalog.rs: filename metadata extraction

`TITLE_RE` is `(?i)(?P<title>[0-9a-f]{16})` and `VERSION_RE` is
`(?i)\[v(?P<version>\d+)\]|(?:^|[^\w])v(?P<version_2>\d+)`. The regex
crate uses leftmost-first semantics: the reported match is the one with
the smallest start position, and alternation order only breaks ties at the
same position. The functions below implement that scan. `TITLE_RE`'s only
class is `[0-9a-f]` with an ASCII case fold, so the title scan is exact on
every input; `VERSION_RE` uses `\w` and `\d`, which the crate interprets
Unicode-aware while this embedding uses their ASCII restrictions — the two
coincide on all-ASCII inputs, and the version theorems are stated for
exactly those. -/

/-- Does the text start with 16 hexadecimal characters? (One candidate
position of `TITLE_RE`.) -/
def hexWindow (l : List Char) : Bool :=
  decide ((l.take 16).length = 16) && (l.take 16).all isHexDigitChar

/-- Leftmost match of `TITLE_RE`: the first position where a 16-hex-char
window begins, returning that window. -/
def titleCapture : List Char → Option (List Char)
  | [] => none
  | c :: rest =>
    if hexWindow (c :: rest) then some ((c :: rest).take 16)
    else titleCapture rest

/-- `to_upper_hex_chars` from `catalog.rs`: exactly 16 characters, each
still a hex digit after ASCII-uppercasing, returned uppercased. -/
def to_upper_hex_chars (raw : List Char) : Option (List Char) :=
  if decide (raw.length = 16) && (raw.map Char.toUpper).all isHexDigitChar then
    some (raw.map Char.toUpper)
  else none

/-- A `v`/`V` followed by at least one digit at the head of the text;
returns the (maximal) digit run, as the greedy `v(\d+)` does. `\d` is
modelled by its ASCII restriction `isDigitChar` (exact on ASCII text;
the crate's `\d` is Unicode-aware). -/
def vDigits : List Char → Option (List Char)
  | v :: rest =>
    if v = 'v' ∨ v = 'V' then
      if rest.takeWhile isDigitChar = [] then none
      else some (rest.takeWhile isDigitChar)
    else none
  | [] => none

/-- A `\[v(\d+)\]` match starting at the head of the text (`\d` as its
ASCII restriction, exact on ASCII text). -/
def bracketHere : List Char → Option (List Char)
  | '[' :: v :: tail =>
    if v = 'v' ∨ v = 'V' then
      if tail.takeWhile isDigitChar = [] then none
      else
        match tail.dropWhile isDigitChar with
        | ']' :: _ => some (tail.takeWhile isDigitChar)
        | _ => none
    else none
  | _ => none

/-- A `(?:^|[^\w])v(\d+)` match starting at the head of the text
(`atStart` tells whether `^` can match here). `\w` and `\d` appear as
their ASCII restrictions, exact on ASCII text. -/
def bareHere (atStart : Bool) (l : List Char) : Option (List Char) :=
  match (if atStart then vDigits l else none) with
  | some ds => some ds
  | none =>
    match l with
    | c :: rest => if isWordChar c then none else vDigits rest
    | [] => none

/-- A `VERSION_RE` match starting at the head of the text, bracket
alternative first (alternation order breaks same-position ties). -/
def versionHere (atStart : Bool) (l : List Char) : Option (List Char) :=
  match bracketHere l with
  | some ds => some ds
  | none => bareHere atStart l

/-- The leftmost-first scan of `VERSION_RE`: try each start position from
the left, returning the first position's captured digit group. -/
def versionScan : Bool → List Char → Option (List Char)
  | _, [] => none
  | atStart, c :: rest =>
    match versionHere atStart (c :: rest) with
    | some ds => some ds
    | none => versionScan false rest

/-- Rust `str::parse::<u32>` on a non-empty digit capture. -/
def parseU32 (ds : List Char) : Option Nat :=
  if digitsVal ds < 4294967296 then some (digitsVal ds) else none

/-- `parse_filename_metadata` from `catalog.rs`: title id from the first
`TITLE_RE` match fed through `to_upper_hex_chars`, version from the first
`VERSION_RE` match (`version` group, else `version_2` — which is the
captured digit group of whichever alternative matched) fed through
`parse::<u32>`. -/
def parse_filename_metadata (name : List Char) : ParsedFilename :=
  { title_id := (titleCapture name).bind to_upper_hex_chars
    version := (versionScan true name).bind parseU32 }

/-- `classify_title_id` from `catalog.rs`: `None` is `Unknown`; otherwise
uppercase and test the `000` / `800` suffix. -/
def classify_title_id : Option (List Char) → ContentKind
  | none => ContentKind.Unknown
  | some title_id =>
    if ['0', '0', '0'].isSuffixOf (title_id.map Char.toUpper) then
      ContentKind.Base
    else if ['8', '0', '0'].isSuffixOf (title_id.map Char.toUpper) then
      ContentKind.Update
    else ContentKind.Dlc

/-! ## scanner.rs / main.rs: one background-scanner tick -/

/-- The `ScanError` enum of `scanner.rs` (the `io::Error` payloads do not
affect control flow and are dropped). -/
inductive ScanError where
  | missingRoot (path : List Char)
  | walk (path : List Char)
  | metadata (path : List Char)
  | normalizePath (path : List Char)
  deriving DecidableEq

/-- One tick of `spawn_background_scanner` as a state transition on the
shared catalog: the task runs `scan_library` and only on `Ok(files)`
overwrites the `RwLock` contents with `Catalog::from_files(files)`; any
error leaves the previous catalog in place. -/
def scannerTick (current : Catalog)
    (scanResult : Except ScanError (List ContentFile)) : Catalog :=
  match scanResult with
  | .error _ => current
  | .ok files => Catalog.from_files files

/-- A sample base-game record used to instantiate catalog theorems. -/
def sampleBase : ContentFile :=
  { relative_path := "a/base.nsp".data, name := "base.nsp".data, size := 1,
    title_id := some "0100ABCD12340000".data, version := some 0,
    kind := ContentKind.Base }

/-- A sample update record sharing `sampleBase`'s title id. -/
def sampleUpdate : ContentFile :=
  { relative_path := "a/update.nsp".data, name := "update.nsp".data, size := 1,
    title_id := some "0100ABCD12340000".data, version := some 65536,
    kind := ContentKind.Update }


/-! ## Helper lemmas about characters and the range-header parser -/

theorem isDigitChar_toNat {c : Char} (h : isDigitChar c = true) :
    48 ≤ c.toNat ∧ c.toNat ≤ 57 := by
  simp only [isDigitChar, Bool.and_eq_true, decide_eq_true_eq] at h
  exact h

theorem not_mem_of_all_digits {ds : List Char} (h : ds.all isDigitChar = true)
    {c : Char} (hc : c.toNat < 48) : c ∉ ds := by
  intro hmem
  have hd := isDigitChar_toNat (List.all_eq_true.mp h c hmem)
  omega

theorem splitOnce_cons_self (sep : Char) (rest : List Char) :
    splitOnce sep (sep :: rest) = some ([], rest) := by
  simp [splitOnce]

theorem splitOnce_append_not_mem {sep : Char} {l : List Char} (h : sep ∉ l)
    (r : List Char) : splitOnce sep (l ++ sep :: r) = some (l, r) := by
  induction l with
  | nil => simp [splitOnce]
  | cons c cs ih =>
    have hcs : sep ∉ cs := fun hm => h (List.mem_cons_of_mem _ hm)
    have hc : ¬ c = sep := fun he => h (he ▸ List.mem_cons_self _ _)
    simp only [List.cons_append, splitOnce, if_neg hc, List.append_eq, ih hcs]

theorem splitOnce_eq_none {sep : Char} {l : List Char} :
    splitOnce sep l = none ↔ sep ∉ l := by
  induction l with
  | nil => simp [splitOnce]
  | cons c cs ih =>
    by_cases hc : c = sep
    · subst hc
      simp [splitOnce]
    · rcases hsp : splitOnce sep cs with _ | ⟨l1, r1⟩
      · have hcs : sep ∉ cs := ih.mp hsp
        simp only [splitOnce, if_neg hc, hsp, List.mem_cons, true_iff]
        intro hor
        rcases hor with he | hm
        · exact hc he.symm
        · exact hcs hm
      · have hmem : sep ∈ cs := by
          by_contra hnm
          rw [ih.mpr hnm] at hsp
          exact absurd hsp (by simp)
        simp [splitOnce, if_neg hc, hsp, List.mem_cons, hmem]

theorem bytesEqToken_isPrefixOf_append (x : List Char) :
    bytesEqToken.isPrefixOf (bytesEqToken ++ x) = true := by
  simp [bytesEqToken, List.isPrefixOf]

theorem drop6_append (x : List Char) : (bytesEqToken ++ x).drop 6 = x :=
  List.drop_left' (by rfl)

theorem ne_nil_of_parseU64 {d : List Char} {N : Nat} (h : parseU64 d = some N) :
    d ≠ [] := by
  intro he
  subst he
  simp [parseU64] at h

/-- C2: for a positive file size the three accepted `Range` forms resolve as
the spec describes: `bytes=-N` (digits `d`, value `N > 0`) to
`[max(0, S - N), S - 1]` with no satisfiability check (so `N ≥ S` serves the
whole file), `bytes=N-` to `[N, S - 1]` when `N < S`, and `bytes=N-M` to
`[N, M]` when `N ≤ M < S`. -/
theorem c2_range_header_forms (S : Nat) (hS : 0 < S) :
    (∀ d N, d.all isDigitChar = true → parseU64 d = some N → 0 < N →
      parse_range_header (bytesEqToken ++ '-' :: d) S =
        .ok { start := S - N, stop := S - 1 }) ∧
    (∀ d N, d.all isDigitChar = true → parseU64 d = some N → N < S →
      parse_range_header (bytesEqToken ++ d ++ ['-']) S =
        .ok { start := N, stop := S - 1 }) ∧
    (∀ d1 d2 N M, d1.all isDigitChar = true → d2.all isDigitChar = true →
      parseU64 d1 = some N → parseU64 d2 = some M → N ≤ M → M < S →
      parse_range_header (bytesEqToken ++ d1 ++ '-' :: d2) S =
        .ok { start := N, stop := M }) := by
  have hSne : ¬ S = 0 := by omega
  refine ⟨?_, ?_, ?_⟩
  · intro d N hdig hparse hN
    have hcomma : ',' ∉ '-' :: d := by
      intro hm
      rcases List.mem_cons.mp hm with he | hm2
      · exact absurd he (by decide)
      · exact not_mem_of_all_digits hdig (by decide) hm2
    have hNne : ¬ N = 0 := by omega
    simp [parse_range_header, drop6_append, splitOnce_cons_self,
      bytesEqToken_isPrefixOf_append, hparse, hSne, hNne, hcomma]
  · intro d N hdig hparse hN
    have hdash : '-' ∉ d := not_mem_of_all_digits hdig (by decide)
    have hcomma : ',' ∉ d ++ ['-'] := by
      intro hm
      rcases List.mem_append.mp hm with hm2 | hm2
      · exact not_mem_of_all_digits hdig (by decide) hm2
      · simp at hm2
    have hsplit : splitOnce '-' (d ++ ['-']) = some (d, []) :=
      splitOnce_append_not_mem hdash []
    have hbounds : ¬ (N ≥ S ∨ S - 1 ≥ S ∨ N > S - 1) := by omega
    rw [List.append_assoc]
    simp [parse_range_header, drop6_append, hsplit,
      bytesEqToken_isPrefixOf_append, hparse, hSne, hcomma,
      ne_nil_of_parseU64 hparse, hbounds]
  · intro d1 d2 N M hdig1 hdig2 hparse1 hparse2 hNM hM
    have hdash : '-' ∉ d1 := not_mem_of_all_digits hdig1 (by decide)
    have hcomma : ',' ∉ d1 ++ '-' :: d2 := by
      intro hm
      rcases List.mem_append.mp hm with hm2 | hm2
      · exact not_mem_of_all_digits hdig1 (by decide) hm2
      · rcases List.mem_cons.mp hm2 with he | hm3
        · exact absurd he (by decide)
        · exact not_mem_of_all_digits hdig2 (by decide) hm3
    have hsplit : splitOnce '-' (d1 ++ '-' :: d2) = some (d1, d2) :=
      splitOnce_append_not_mem hdash d2
    have hbounds : ¬ (N ≥ S ∨ M ≥ S ∨ N > M) := by omega
    rw [List.append_assoc]
    simp [parse_range_header, drop6_append, hsplit,
      bytesEqToken_isPrefixOf_append, hparse1, hparse2, hSne, hcomma,
      ne_nil_of_parseU64 hparse1, ne_nil_of_parseU64 hparse2, hbounds]

/-- Witness for C2 at the spec examples over a ten-byte file. -/
theorem c2_range_header_forms_witness :
    parse_range_header (bytesEqToken ++ '-' :: ['3']) 10 =
      .ok { start := 10 - 3, stop := 10 - 1 } ∧
    parse_range_header (bytesEqToken ++ ['2'] ++ ['-']) 10 =
      .ok { start := 2, stop := 10 - 1 } ∧
    parse_range_header (bytesEqToken ++ ['1'] ++ '-' :: ['3']) 10 =
      .ok { start := 1, stop := 3 } :=
  ⟨(c2_range_header_forms 10 (by decide)).1 ['3'] 3 (by decide) (by decide)
      (by decide),
   (c2_range_header_forms 10 (by decide)).2.1 ['2'] 2 (by decide) (by decide)
      (by decide),
   (c2_range_header_forms 10 (by decide)).2.2 ['1'] ['3'] 1 3 (by decide)
      (by decide) (by decide) (by decide) (by decide) (by decide)⟩

/-- C3: `parse_range_header` errors exactly under the spec's invalidity
conditions, and an invalid range makes `stream_with_range_support` answer
a well-formed 416 response with `Content-Range: bytes */S` and an empty
body instead of failing. -/
theorem c3_invalid_range_characterization (value : List Char) (S : Nat) :
    ((∃ err, parse_range_header value S = .error err) ↔ invalidRangeSpec value S) ∧
    (∀ content : List Nat, content.length = S →
      ∀ err, parse_range_header value S = .error err →
        stream_with_range_support content (some value) =
          { status := 416, contentLength := none,
            contentRange := some (contentRangeUnsat S), acceptRanges := false,
            body := [] }) := by
  constructor
  · by_cases h0 : S = 0
    · simp [parse_range_header, invalidRangeSpec, h0]
    · by_cases hp : bytesEqToken.isPrefixOf value
      · by_cases hcomma : ',' ∈ value.drop 6
        · simp [parse_range_header, invalidRangeSpec, h0, hp, hcomma]
        · rcases hsp : splitOnce '-' (value.drop 6) with _ | ⟨rs, re⟩
          · have hnd : '-' ∉ value.drop 6 := splitOnce_eq_none.mp hsp
            simp [parse_range_header, invalidRangeSpec, h0, hp, hcomma, hsp, hnd]
          · have hd : '-' ∈ value.drop 6 := by
              by_contra hnd
              rw [splitOnce_eq_none.mpr hnd] at hsp
              exact absurd hsp (by simp)
            by_cases hrs : rs = []
            · subst hrs
              rcases hpe : parseU64 re with _ | N
              · simp [parse_range_header, invalidRangeSpec, h0, hp, hcomma,
                  hsp, hd, hpe]
                exact ⟨[], re, ⟨rfl, rfl⟩, Or.inl ⟨rfl, Or.inl hpe⟩⟩
              · by_cases hN0 : N = 0
                · subst hN0
                  simp [parse_range_header, invalidRangeSpec, h0, hp, hcomma,
                    hsp, hd, hpe]
                  exact ⟨[], re, ⟨rfl, rfl⟩, Or.inl ⟨rfl, Or.inr hpe⟩⟩
                · simp [parse_range_header, invalidRangeSpec, h0, hp, hcomma,
                    hsp, hd, hpe, hN0]
            · rcases hps : parseU64 rs with _ | s
              · simp [parse_range_header, invalidRangeSpec, h0, hp, hcomma,
                  hsp, hd, hrs, hps]
                exact ⟨rs, re, ⟨rfl, rfl⟩, Or.inr (Or.inl ⟨hrs, hps⟩)⟩
              · rcases hpe2 : (if re = [] then some (S - 1) else parseU64 re)
                  with _ | e
                · have hre : ¬ re = [] := by
                    intro he
                    simp [he] at hpe2
                  have hpen : parseU64 re = none := by
                    rw [if_neg hre] at hpe2
                    exact hpe2
                  simp [parse_range_header, invalidRangeSpec, h0, hp, hcomma,
                    hsp, hd, hrs, hps, hpe2, hre, hpen]
                  exact ⟨rs, re, ⟨rfl, rfl⟩,
                    Or.inr (Or.inr (Or.inl ⟨hrs, hre, hpen⟩))⟩
                · by_cases hb : s ≥ S ∨ e ≥ S ∨ s > e
                  · simp only [parse_range_header, if_neg (by tauto :
                      ¬ (S = 0 ∨ ¬ bytesEqToken.isPrefixOf value = true)),
                      if_neg hcomma, hsp, if_neg hrs, hps, hpe2, if_pos hb,
                      invalidRangeSpec]
                    constructor
                    · intro _
                      refine Or.inr (Or.inr (Or.inr (Or.inr ⟨rs, re, rfl, ?_⟩)))
                      refine Or.inr (Or.inr (Or.inr ⟨hrs, s, e, hps, hpe2, ?_⟩))
                      omega
                    · intro _
                      exact ⟨.invalidRange, rfl⟩
                  · simp only [parse_range_header, if_neg (by tauto :
                      ¬ (S = 0 ∨ ¬ bytesEqToken.isPrefixOf value = true)),
                      if_neg hcomma, hsp, if_neg hrs, hps, hpe2, if_neg hb,
                      invalidRangeSpec]
                    constructor
                    · intro hex
                      rcases hex with ⟨err, heq⟩
                      exact absurd heq (by simp)
                    · intro hspec
                      exfalso
                      rcases hspec with h0b | hpb | hcb | hdb |
                        ⟨rs2, re2, heq, hcases⟩
                      · exact h0 h0b
                      · exact hpb hp
                      · exact hcomma hcb
                      · exact hdb hd
                      · injection heq with heq2
                        have hfst : rs = rs2 := congrArg Prod.fst heq2
                        have hsnd : re = re2 := congrArg Prod.snd heq2
                        subst hfst
                        subst hsnd
                        rcases hcases with ⟨hrs2, _⟩ | ⟨_, hps2⟩ |
                          ⟨_, hre2, hpe3⟩ | ⟨_, s2, e2, hps2, hpe3, hb2⟩
                        · exact hrs hrs2
                        · rw [hps] at hps2
                          exact absurd hps2 (by simp)
                        · rw [if_neg hre2] at hpe2
                          rw [hpe3] at hpe2
                          exact absurd hpe2 (by simp)
                        · rw [hps] at hps2
                          injection hps2 with hs2
                          rw [hpe2] at hpe3
                          injection hpe3 with he2
                          subst hs2
                          subst he2
                          exact hb (by omega)
      · simp [parse_range_header, invalidRangeSpec, h0, hp]
  · intro content hlen err herr
    subst hlen
    simp [stream_with_range_support, herr]

/-- Witness for C3: `bytes=20-30` on a ten-byte file is invalid per the
spec conditions and produces the 416 response. -/
theorem c3_invalid_range_witness :
    invalidRangeSpec "bytes=20-30".data 10 ∧
    stream_with_range_support [48, 49, 50, 51, 52, 53, 54, 55, 56, 57]
        (some "bytes=20-30".data) =
      { status := 416, contentLength := none,
        contentRange := some (contentRangeUnsat 10), acceptRanges := false,
        body := [] } :=
  ⟨(c3_invalid_range_characterization "bytes=20-30".data 10).1.mp
      ⟨.invalidRange, by decide⟩,
   (c3_invalid_range_characterization "bytes=20-30".data 10).2
      [48, 49, 50, 51, 52, 53, 54, 55, 56, 57] (by decide) .invalidRange
      (by decide)⟩

theorem parse_ok_bounds {value : List Char} {S : Nat} {r : ByteRange}
    (h : parse_range_header value S = .ok r) :
    0 < S ∧ r.start ≤ r.stop ∧ r.stop < S := by
  by_cases h0 : S = 0
  · rw [show parse_range_header value S = .error .invalidRange from by
      simp [parse_range_header, h0]] at h
    exact absurd h (by simp)
  by_cases hp : bytesEqToken.isPrefixOf value
  · by_cases hcomma : ',' ∈ value.drop 6
    · rw [show parse_range_header value S = .error .invalidRange from by
        simp [parse_range_header, h0, hp, hcomma]] at h
      exact absurd h (by simp)
    rcases hsp : splitOnce '-' (value.drop 6) with _ | ⟨rs, re⟩
    · rw [show parse_range_header value S = .error .invalidRange from by
        simp [parse_range_header, h0, hp, hcomma, hsp]] at h
      exact absurd h (by simp)
    by_cases hrs : rs = []
    · subst hrs
      rcases hpe : parseU64 re with _ | N
      · rw [show parse_range_header value S = .error .invalidRange from by
          simp [parse_range_header, h0, hp, hcomma, hsp, hpe]] at h
        exact absurd h (by simp)
      by_cases hN : N = 0
      · rw [show parse_range_header value S = .error .invalidRange from by
          simp [parse_range_header, h0, hp, hcomma, hsp, hpe, hN]] at h
        exact absurd h (by simp)
      rw [show parse_range_header value S = .ok { start := S - N, stop := S - 1 }
          from by simp [parse_range_header, h0, hp, hcomma, hsp, hpe, hN]] at h
      injection h with h2
      rw [← h2]
      refine ⟨by omega, ?_, ?_⟩
      · show S - N ≤ S - 1
        omega
      · show S - 1 < S
        omega
    · rcases hps : parseU64 rs with _ | s
      · rw [show parse_range_header value S = .error .invalidRange from by
          simp [parse_range_header, h0, hp, hcomma, hsp, hrs, hps]] at h
        exact absurd h (by simp)
      rcases hpe2 : (if re = [] then some (S - 1) else parseU64 re) with _ | e
      · rw [show parse_range_header value S = .error .invalidRange from by
          simp [parse_range_header, h0, hp, hcomma, hsp, hrs, hps, hpe2]] at h
        exact absurd h (by simp)
      by_cases hb : s ≥ S ∨ e ≥ S ∨ s > e
      · rw [show parse_range_header value S = .error .invalidRange from by
          simp [parse_range_header, h0, hp, hcomma, hsp, hrs, hps, hpe2, hb]] at h
        exact absurd h (by simp)
      rw [show parse_range_header value S = .ok { start := s, stop := e } from by
        simp [parse_range_header, h0, hp, hcomma, hsp, hrs, hps, hpe2, hb]] at h
      injection h with h2
      rw [← h2]
      refine ⟨by omega, ?_, ?_⟩
      · show s ≤ e
        omega
      · show e < S
        omega
  · rw [show parse_range_header value S = .error .invalidRange from by
      simp [parse_range_header, hp]] at h
    exact absurd h (by simp)

/-- C1: when the `Range` header parses to a byte range, that range is valid
(`start ≤ end < S`) and the response is a 206 with
`Content-Range: bytes start-end/S`, `Content-Length = end - start + 1`,
and a body that is exactly the file bytes from `start` to `end`
inclusive. -/
theorem c1_valid_range_partial_content (content : List Nat)
    (value : List Char) (r : ByteRange)
    (h : parse_range_header value content.length = .ok r) :
    r.start ≤ r.stop ∧ r.stop < content.length ∧
    (stream_with_range_support content (some value)).status = 206 ∧
    (stream_with_range_support content (some value)).contentRange =
      some (contentRangeValue r.start r.stop content.length) ∧
    (stream_with_range_support content (some value)).contentLength =
      some (r.stop - r.start + 1) ∧
    (stream_with_range_support content (some value)).body.length =
      r.stop - r.start + 1 ∧
    (∀ k, k < r.stop - r.start + 1 →
      (stream_with_range_support content (some value)).body[k]? =
        content[r.start + k]?) := by
  obtain ⟨hS, hse, heS⟩ := parse_ok_bounds h
  refine ⟨hse, heS, ?_, ?_, ?_, ?_, ?_⟩
  · simp [stream_with_range_support, h]
  · simp [stream_with_range_support, h]
  · simp [stream_with_range_support, h, ByteRange.len]
  · simp only [stream_with_range_support, Option.map_some', h,
      List.length_take, List.length_drop, ByteRange.len]
    omega
  · intro k hk
    simp only [stream_with_range_support, Option.map_some', h]
    rw [List.getElem?_take_of_lt (by simpa [ByteRange.len] using hk),
      List.getElem?_drop]

/-- Witness for C1: the ten-byte file `"0123456789"` with `bytes=1-3`. -/
theorem c1_valid_range_witness :
    (stream_with_range_support [48, 49, 50, 51, 52, 53, 54, 55, 56, 57]
      (some "bytes=1-3".data)).status = 206 ∧
    (stream_with_range_support [48, 49, 50, 51, 52, 53, 54, 55, 56, 57]
      (some "bytes=1-3".data)).contentLength = some 3 ∧
    (stream_with_range_support [48, 49, 50, 51, 52, 53, 54, 55, 56, 57]
      (some "bytes=1-3".data)).body = [49, 50, 51] :=
  have h := c1_valid_range_partial_content
    [48, 49, 50, 51, 52, 53, 54, 55, 56, 57] "bytes=1-3".data
    { start := 1, stop := 3 } (by decide)
  ⟨h.2.2.1, h.2.2.2.2.1, by decide⟩

/-! ## Path sanitation lemmas (C4) -/

theorem sanitizeGo_error_of_parent :
    ∀ (parts : List (List Char)) (acc : List (List Char)),
      ['.', '.'] ∈ parts → sanitizeGo parts acc = .error .invalidPath := by
  intro parts
  induction parts with
  | nil =>
    intro acc h
    simp at h
  | cons p ps ih =>
    intro acc hmem
    rcases List.mem_cons.mp hmem with he | hm
    · rw [← he]
      simp [sanitizeGo]
    · by_cases h1 : p = ['.']
      · simpa [sanitizeGo, h1] using ih acc hm
      · by_cases h2 : p = ['.', '.']
        · simp [sanitizeGo, h1, h2]
        · simpa [sanitizeGo, h1, h2] using ih (acc ++ [p]) hm

theorem sanitizeGo_ok_shape :
    ∀ (parts acc l : List (List Char)),
      (∀ c ∈ parts, c ≠ []) →
      (∀ c ∈ acc, c ≠ [] ∧ c ≠ ['.'] ∧ c ≠ ['.', '.']) →
      sanitizeGo parts acc = .ok l →
      l ≠ [] ∧ ∀ c ∈ l, c ≠ [] ∧ c ≠ ['.'] ∧ c ≠ ['.', '.'] := by
  intro parts
  induction parts with
  | nil =>
    intro acc l hparts hacc h
    unfold sanitizeGo at h
    by_cases hae : acc = []
    · rw [if_pos hae] at h
      exact absurd h (by simp)
    · rw [if_neg hae] at h
      injection h with h2
      subst h2
      exact ⟨hae, hacc⟩
  | cons p ps ih =>
    intro acc l hparts hacc h
    unfold sanitizeGo at h
    by_cases h1 : p = ['.']
    · rw [if_pos h1] at h
      exact ih acc l (fun c hc => hparts c (List.mem_cons_of_mem _ hc)) hacc h
    · rw [if_neg h1] at h
      by_cases h2 : p = ['.', '.']
      · rw [if_pos h2] at h
        exact absurd h (by simp)
      · rw [if_neg h2] at h
        refine ih (acc ++ [p]) l
          (fun c hc => hparts c (List.mem_cons_of_mem _ hc)) ?_ h
        intro c hc
        rcases List.mem_append.mp hc with hc2 | hc2
        · exact hacc c hc2
        · have hcp : c = p := by simpa using hc2
          subst hcp
          exact ⟨hparts c (List.mem_cons_self _ _), h1, h2⟩

theorem pathComponents_ne_nil {s : List Char} : ∀ c ∈ pathComponents s, c ≠ [] := by
  intro c hc
  have hf := List.of_mem_filter hc
  simpa using hf

/-- C4: `sanitize_relative_path` rejects the traversal and empty examples,
accepts `a/b/c.nsp` unchanged, drops `.` components, strips leading
slashes, fails whenever a `..` component remains after splitting, and on
success returns a non-empty list of purely normal components. -/
theorem c4_sanitize_relative_path :
    sanitize_relative_path "../etc/passwd".data = .error .invalidPath ∧
    sanitize_relative_path "/../../x".data = .error .invalidPath ∧
    sanitize_relative_path "".data = .error .invalidPath ∧
    sanitize_relative_path "/".data = .error .invalidPath ∧
    sanitize_relative_path "a/b/c.nsp".data =
      .ok [['a'], ['b'], ['c', '.', 'n', 's', 'p']] ∧
    sanitize_relative_path "./a/./b".data = .ok [['a'], ['b']] ∧
    (∀ s, sanitize_relative_path ('/' :: s) = sanitize_relative_path s) ∧
    (∀ s, ['.', '.'] ∈ pathComponents (s.dropWhile (fun c => c = '/')) →
      sanitize_relative_path s = .error .invalidPath) ∧
    (∀ s l, sanitize_relative_path s = .ok l →
      l ≠ [] ∧ ∀ c ∈ l, c ≠ [] ∧ c ≠ ['.'] ∧ c ≠ ['.', '.']) := by
  refine ⟨by decide, by decide, by decide, by decide, by decide, by decide,
    ?_, ?_, ?_⟩
  · intro s
    simp [sanitize_relative_path, List.dropWhile_cons]
  · intro s hmem
    exact sanitizeGo_error_of_parent _ [] hmem
  · intro s l h
    exact sanitizeGo_ok_shape _ [] l pathComponents_ne_nil (by simp) h

/-- Witness for C4 at the accepted path `a/b/c.nsp`. -/
theorem c4_sanitize_witness :
    sanitize_relative_path "a/b/c.nsp".data =
      .ok [['a'], ['b'], ['c', '.', 'n', 's', 'p']] ∧
    ([['a'], ['b'], ['c', '.', 'n', 's', 'p']] : List (List Char)) ≠ [] :=
  ⟨by decide,
   (c4_sanitize_relative_path.2.2.2.2.2.2.2.2 "a/b/c.nsp".data
      [['a'], ['b'], ['c', '.', 'n', 's', 'p']] (by decide)).1⟩

/-! ## ASCII-uppercase lemmas -/

theorem char_toNat_ofNat {n : Nat} (h : Nat.isValidChar n) :
    (Char.ofNat n).toNat = n := by
  simp [Char.ofNat, dif_pos h, Char.ofNatAux, Char.toNat, UInt32.toNat]

theorem char_toNat_inj {c d : Char} (h : c.toNat = d.toNat) : c = d := by
  apply Char.eq_of_val_eq
  apply UInt32.eq_of_toBitVec_eq
  exact BitVec.eq_of_toNat_eq h

theorem toUpper_toNat_lower {c : Char} (h97 : 97 ≤ c.toNat)
    (h122 : c.toNat ≤ 122) : (Char.toUpper c).toNat = c.toNat - 32 := by
  unfold Char.toUpper
  rw [if_pos ⟨h97, h122⟩]
  exact char_toNat_ofNat (Or.inl (by omega))

theorem toUpper_eq_self {c : Char} (h : ¬ (97 ≤ c.toNat ∧ c.toNat ≤ 122)) :
    Char.toUpper c = c := by
  unfold Char.toUpper
  rw [if_neg (show ¬ (c.toNat ≥ 97 ∧ c.toNat ≤ 122) from
    fun hc => h ⟨hc.1, hc.2⟩)]

theorem toUpper_idem (c : Char) :
    Char.toUpper (Char.toUpper c) = Char.toUpper c := by
  by_cases h : 97 ≤ c.toNat ∧ c.toNat ≤ 122
  · have h1 := toUpper_toNat_lower h.1 h.2
    apply toUpper_eq_self
    omega
  · rw [toUpper_eq_self h]
    exact toUpper_eq_self h

theorem map_toUpper_idem (q : List Char) :
    (q.map Char.toUpper).map Char.toUpper = q.map Char.toUpper := by
  rw [List.map_map]
  exact List.map_congr_left (fun c _ => toUpper_idem c)

theorem isHexDigitChar_toUpper {c : Char} (h : isHexDigitChar c = true) :
    isHexDigitChar (Char.toUpper c) = true := by
  simp only [isHexDigitChar, Bool.or_eq_true, Bool.and_eq_true,
    decide_eq_true_eq] at h ⊢
  by_cases hl : 97 ≤ c.toNat ∧ c.toNat ≤ 122
  · have h1 := toUpper_toNat_lower hl.1 hl.2
    omega
  · rw [toUpper_eq_self hl]
    exact h

/-! ## C8: classification -/

/-- C8: `classify_title_id` is total with no error outcome: `None` maps to
`Unknown`; identifiers whose uppercased form ends in `000` map to `Base`,
in `800` to `Update`, anything else to `Dlc`; and the result is `Unknown`
exactly for an absent identifier. -/
theorem c8_classify_title_id :
    classify_title_id none = ContentKind.Unknown ∧
    (∀ s, ['0', '0', '0'].isSuffixOf (s.map Char.toUpper) = true →
      classify_title_id (some s) = ContentKind.Base) ∧
    (∀ s, ['8', '0', '0'].isSuffixOf (s.map Char.toUpper) = true →
      classify_title_id (some s) = ContentKind.Update) ∧
    (∀ s, ¬ ['0', '0', '0'].isSuffixOf (s.map Char.toUpper) = true →
      ¬ ['8', '0', '0'].isSuffixOf (s.map Char.toUpper) = true →
      classify_title_id (some s) = ContentKind.Dlc) ∧
    (∀ t, classify_title_id t = ContentKind.Unknown ↔ t = none) := by
  refine ⟨rfl, ?_, ?_, ?_, ?_⟩
  · intro s h
    simp [classify_title_id, h]
  · intro s h8
    have h0 : ¬ ['0', '0', '0'].isSuffixOf (s.map Char.toUpper) = true := by
      intro h0
      rw [List.isSuffixOf_iff_suffix] at h0 h8
      rcases List.suffix_or_suffix_of_suffix h0 h8 with hs | hs
      · exact absurd (hs.eq_of_length (by rfl)) (by decide)
      · exact absurd (hs.eq_of_length (by rfl)) (by decide)
    simp [classify_title_id, h0, h8]
  · intro s h0 h8
    simp [classify_title_id, h0, h8]
  · intro t
    rcases t with _ | s
    · simp [classify_title_id]
    · simp only [classify_title_id]
      constructor
      · intro h
        by_cases h0 : ['0', '0', '0'].isSuffixOf (s.map Char.toUpper) = true
        · rw [if_pos h0] at h
          cases h
        · rw [if_neg h0] at h
          by_cases h8 : ['8', '0', '0'].isSuffixOf (s.map Char.toUpper) = true
          · rw [if_pos h8] at h
            cases h
          · rw [if_neg h8] at h
            cases h
      · intro h
        cases h

/-- Witness for C8 at the three identifier shapes from the code's tests. -/
theorem c8_classify_witness :
    classify_title_id (some "0100ABCD12340000".data) = ContentKind.Base ∧
    classify_title_id (some "0100ABCD12340800".data) = ContentKind.Update ∧
    classify_title_id (some "0100ABCD12340001".data) = ContentKind.Dlc :=
  ⟨c8_classify_title_id.2.1 "0100ABCD12340000".data (by decide),
   c8_classify_title_id.2.2.1 "0100ABCD12340800".data (by decide),
   c8_classify_title_id.2.2.2.1 "0100ABCD12340001".data (by decide)
     (by decide)⟩

/-! ## C10: case-insensitive versions lookup -/

/-- C10: `Catalog::versions` uppercases its argument before the map lookup,
so a query and its uppercased form give the same answer, and any returned
group is labelled with the uppercased query. -/
theorem c10_versions_case_insensitive (c : Catalog) (q : List Char) :
    c.versions q = c.versions (q.map Char.toUpper) ∧
    (∀ tv, c.versions q = some tv → tv.title_id = q.map Char.toUpper) := by
  constructor
  · unfold Catalog.versions
    rw [map_toUpper_idem]
  · intro tv h
    rcases htl : titlesLookup c.titles (q.map Char.toUpper) with _ | is <;>
      simp only [Catalog.versions, htl, Option.map_some', Option.map_none'] at h
    · exact absurd h (by simp)
    · injection h with h2
      rw [← h2]

/-- Witness for C10: a lowercase query against a catalog holding the
uppercase id. -/
theorem c10_versions_witness :
    (Catalog.from_files [sampleBase]).versions "0100abcd12340000".data =
      (Catalog.from_files [sampleBase]).versions
        ("0100abcd12340000".data.map Char.toUpper) ∧
    ({ title_id := "0100ABCD12340000".data, files := [sampleBase] } :
        TitleVersions).title_id = "0100abcd12340000".data.map Char.toUpper :=
  ⟨(c10_versions_case_insensitive (Catalog.from_files [sampleBase])
      "0100abcd12340000".data).1,
   (c10_versions_case_insensitive (Catalog.from_files [sampleBase])
      "0100abcd12340000".data).2
     { title_id := "0100ABCD12340000".data, files := [sampleBase] }
     (by decide)⟩

/-! ## C6: title-id extraction -/

theorem titleCapture_none_iff (s : List Char) :
    titleCapture s = none ↔ ∀ i, hexWindow (s.drop i) = false := by
  induction s with
  | nil =>
    constructor
    · intro _ i
      rw [List.drop_nil]
      decide
    · intro _
      rfl
  | cons c rest ih =>
    by_cases hw : hexWindow (c :: rest) = true
    · simp only [titleCapture, if_pos hw]
      constructor
      · intro h
        exact absurd h (by simp)
      · intro hall
        have h0 := hall 0
        rw [List.drop_zero, hw] at h0
        cases h0
    · have hwf : hexWindow (c :: rest) = false := by
        revert hw
        cases hexWindow (c :: rest) <;> simp
      simp only [titleCapture, if_neg hw]
      rw [ih]
      constructor
      · intro hall i
        cases i with
        | zero =>
          rw [List.drop_zero]
          exact hwf
        | succ j =>
          rw [List.drop_succ_cons]
          exact hall j
      · intro hall j
        have hj := hall (j + 1)
        rw [List.drop_succ_cons] at hj
        exact hj

theorem titleCapture_first (s : List Char) (i : Nat)
    (hi : hexWindow (s.drop i) = true)
    (hmin : ∀ j, j < i → hexWindow (s.drop j) = false) :
    titleCapture s = some ((s.drop i).take 16) := by
  induction s generalizing i with
  | nil =>
    rw [List.drop_nil] at hi
    exact absurd hi (by decide)
  | cons c rest ih =>
    cases i with
    | zero =>
      rw [List.drop_zero] at hi ⊢
      simp only [titleCapture, if_pos hi]
    | succ j =>
      have h0 := hmin 0 (Nat.succ_pos j)
      rw [List.drop_zero] at h0
      have hne : ¬ hexWindow (c :: rest) = true := by simp [h0]
      simp only [titleCapture, if_neg hne]
      rw [List.drop_succ_cons] at hi ⊢
      refine ih j hi (fun j2 hj2 => ?_)
      have hj2d := hmin (j2 + 1) (by omega)
      rw [List.drop_succ_cons] at hj2d
      exact hj2d

/-- C6: the extracted identifier is the uppercased first 16-hex-character
window of the input (the leftmost `TITLE_RE` match), and `none` exactly
when no such window exists; at most one identifier is ever produced. -/
theorem c6_title_id_first_hex_run (s : List Char) :
    ((∀ i, hexWindow (s.drop i) = false) →
      (parse_filename_metadata s).title_id = none) ∧
    (∀ i, hexWindow (s.drop i) = true →
      (∀ j, j < i → hexWindow (s.drop j) = false) →
      (parse_filename_metadata s).title_id =
        some (((s.drop i).take 16).map Char.toUpper)) := by
  constructor
  · intro h
    have hc := (titleCapture_none_iff s).mpr h
    simp [parse_filename_metadata, hc]
  · intro i hi hmin
    have hc := titleCapture_first s i hi hmin
    have hlen : ((s.drop i).take 16).length = 16 := by
      simp only [hexWindow, Bool.and_eq_true, decide_eq_true_eq] at hi
      exact hi.1
    have hall : ((s.drop i).take 16).all isHexDigitChar = true := by
      simp only [hexWindow, Bool.and_eq_true, decide_eq_true_eq] at hi
      exact hi.2
    have hup : to_upper_hex_chars ((s.drop i).take 16) =
        some (((s.drop i).take 16).map Char.toUpper) := by
      unfold to_upper_hex_chars
      rw [if_pos]
      simp only [Bool.and_eq_true, decide_eq_true_eq, List.all_map]
      refine ⟨hlen, List.all_eq_true.mpr (fun c hc2 => ?_)⟩
      exact isHexDigitChar_toUpper (List.all_eq_true.mp hall c hc2)
    simp [parse_filename_metadata, hc, hup]

/-- Witness for C6: a lowercase id embedded at position 9 of a filename. -/
theorem c6_title_id_witness :
    (parse_filename_metadata "My Game [0100abcd12340000].nsp".data).title_id =
      some ((("My Game [0100abcd12340000].nsp".data.drop 9).take 16).map
        Char.toUpper) ∧
    (parse_filename_metadata "My Game [0100abcd12340000].nsp".data).title_id =
      some "0100ABCD12340000".data :=
  ⟨(c6_title_id_first_hex_run "My Game [0100abcd12340000].nsp".data).2 9
      (by decide) (by decide),
   by decide⟩

/-! ## C7: version extraction (leftmost-first, not bracket-first) -/

theorem versionHere_nil (b : Bool) : versionHere b [] = none := by
  cases b <;> rfl

theorem versionScan_leftmost (b : Bool) (s : List Char) (i : Nat)
    (ds : List Char)
    (hmatch : versionHere (b && decide (i = 0)) (s.drop i) = some ds)
    (hmin : ∀ j, j < i → versionHere (b && decide (j = 0)) (s.drop j) = none) :
    versionScan b s = some ds := by
  induction s generalizing b i with
  | nil =>
    rw [List.drop_nil, versionHere_nil] at hmatch
    exact absurd hmatch (by simp)
  | cons c rest ih =>
    cases i with
    | zero =>
      have hb : (b && decide ((0 : Nat) = 0)) = b := by simp
      rw [List.drop_zero, hb] at hmatch
      simp only [versionScan, hmatch]
    | succ j =>
      have h0 := hmin 0 (Nat.succ_pos j)
      have hb : (b && decide ((0 : Nat) = 0)) = b := by simp
      rw [List.drop_zero, hb] at h0
      simp only [versionScan, h0]
      refine ih false j ?_ ?_
      · rw [List.drop_succ_cons] at hmatch
        have he : (b && decide (j + 1 = 0)) = (false && decide (j = 0)) := by
          simp
        rw [he] at hmatch
        exact hmatch
      · intro j2 hj2
        have hd := hmin (j2 + 1) (by omega)
        rw [List.drop_succ_cons] at hd
        have he : (b && decide (j2 + 1 = 0)) = (false && decide (j2 = 0)) := by
          simp
        rw [he] at hd
        exact hd

/-- C7, amended and stated for all-ASCII inputs — on which the embedded
ASCII classes coincide with the regex crate's Unicode-aware `\w` and
`\d`, so the scan is exactly `VERSION_RE` there: the version comes from
the version token whose match starts leftmost in the string — `[vN]` is
preferred only on a same-position tie (it is the first alternative), not
regardless of position. -/
theorem c7_version_leftmost_precedence (s : List Char) (i : Nat)
    (ds : List Char)
    (_hascii : s.all (fun c => decide (c.toNat ≤ 127)) = true)
    (htok : versionHere (decide (i = 0)) (s.drop i) = some ds)
    (hfirst : ∀ j, j < i → versionHere (decide (j = 0)) (s.drop j) = none)
    (hfit : digitsVal ds < 4294967296) :
    (parse_filename_metadata s).version = some (digitsVal ds) ∧
    (∀ b l ds2, bracketHere l = some ds2 → versionHere b l = some ds2) := by
  constructor
  · have hscan := versionScan_leftmost true s i ds (by simpa using htok)
      (fun j hj => by simpa using hfirst j hj)
    simp [parse_filename_metadata, hscan, parseU32, hfit]
  · intro b l ds2 h
    simp [versionHere, h]

/-- C7 counterexample: the all-ASCII input `"v1 [v2]"` — where the scan is
exactly `VERSION_RE` — contains a bracketed `[v2]` token (at position 3)
and a bare `v1` token (at the start), yet the parsed version is 1, not
the bracketed 2: the earlier bare match wins. -/
theorem c7_bracket_precedence_counterexample :
    "v1 [v2]".data.all (fun c => decide (c.toNat ≤ 127)) = true ∧
    bracketHere ("v1 [v2]".data.drop 3) = some ['2'] ∧
    bareHere true "v1 [v2]".data = some ['1'] ∧
    (parse_filename_metadata "v1 [v2]".data).version = some 1 ∧
    ¬ (parse_filename_metadata "v1 [v2]".data).version = some 2 := by
  decide

/-- Witness for the amended C7: when the bracketed token is leftmost in an
all-ASCII input (`"[v2] v3"`), its value is returned. -/
theorem c7_version_witness :
    (parse_filename_metadata "[v2] v3".data).version = some 2 :=
  (c7_version_leftmost_precedence "[v2] v3".data 0 ['2'] (by decide)
      (by decide) (fun j hj => absurd hj (Nat.not_lt_zero j)) (by decide)).1

/-! ## C5: laws of the sort comparator -/

theorem natCmp_eq_lt {a b : Nat} : natCmp a b = .lt ↔ a < b := by
  unfold natCmp
  split_ifs with h1 h2
  · simp [h1]
  · simp
    omega
  · simp
    omega

theorem natCmp_eq_eq {a b : Nat} : natCmp a b = .eq ↔ a = b := by
  unfold natCmp
  split_ifs with h1 h2
  · simp
    omega
  · simp [h2]
  · simp
    omega

theorem natCmp_lt_trans (a b c : Nat) :
    natCmp a b = .lt → natCmp b c = .lt → natCmp a c = .lt := by
  intro h1 h2
  rw [natCmp_eq_lt] at h1 h2 ⊢
  omega

theorem natCmp_swap (a b : Nat) : natCmp a b = (natCmp b a).swap := by
  unfold natCmp
  split_ifs <;> first | rfl | omega

theorem charCmp_eq_eq {a b : Char} : charCmp a b = .eq ↔ a = b := by
  unfold charCmp
  rw [natCmp_eq_eq]
  exact ⟨char_toNat_inj, fun h => by rw [h]⟩

theorem charCmp_lt_trans (a b c : Char) :
    charCmp a b = .lt → charCmp b c = .lt → charCmp a c = .lt :=
  natCmp_lt_trans _ _ _

theorem charCmp_swap (a b : Char) : charCmp a b = (charCmp b a).swap :=
  natCmp_swap _ _

theorem ordering_then_eq_eq {o p : Ordering} :
    o.then p = .eq ↔ o = .eq ∧ p = .eq := by
  cases o <;> cases p <;> decide

theorem ordering_then_ne_gt {o p : Ordering} :
    o.then p ≠ .gt ↔ o = .lt ∨ (o = .eq ∧ p ≠ .gt) := by
  cases o <;> cases p <;> decide

theorem ordering_then_swap (o p : Ordering) :
    (o.then p).swap = o.swap.then p.swap := by
  cases o <;> rfl

theorem listCharCmp_eq_eq : ∀ {l m : List Char}, listCharCmp l m = .eq ↔ l = m := by
  intro l
  induction l with
  | nil =>
    intro m
    cases m <;> simp [listCharCmp]
  | cons a as ih =>
    intro m
    cases m with
    | nil => simp [listCharCmp]
    | cons b bs =>
      simp only [listCharCmp, ordering_then_eq_eq, charCmp_eq_eq, ih,
        List.cons.injEq]

theorem listCharCmp_lt_trans :
    ∀ (l m n : List Char), listCharCmp l m = .lt → listCharCmp m n = .lt →
      listCharCmp l n = .lt := by
  intro l
  induction l with
  | nil =>
    intro m n h1 h2
    cases m with
    | nil => exact absurd h1 (by simp [listCharCmp])
    | cons b bs =>
      cases n with
      | nil => exact absurd h2 (by simp [listCharCmp])
      | cons c cs => simp [listCharCmp]
  | cons a as ih =>
    intro m n h1 h2
    cases m with
    | nil => exact absurd h1 (by simp [listCharCmp])
    | cons b bs =>
      cases n with
      | nil => exact absurd h2 (by simp [listCharCmp])
      | cons c cs =>
        simp only [listCharCmp, Ordering.then_eq_lt] at h1 h2 ⊢
        rcases h1 with h1 | ⟨h1e, h1r⟩
        · rcases h2 with h2 | ⟨h2e, h2r⟩
          · exact Or.inl (charCmp_lt_trans a b c h1 h2)
          · rw [charCmp_eq_eq] at h2e
            rw [← h2e]
            exact Or.inl h1
        · rw [charCmp_eq_eq] at h1e
          subst h1e
          rcases h2 with h2 | ⟨h2e, h2r⟩
          · exact Or.inl h2
          · rw [charCmp_eq_eq] at h2e
            subst h2e
            exact Or.inr ⟨charCmp_eq_eq.mpr rfl, ih bs cs h1r h2r⟩

theorem listCharCmp_ne_gt_trans :
    ∀ (l m n : List Char), listCharCmp l m ≠ .gt → listCharCmp m n ≠ .gt →
      listCharCmp l n ≠ .gt := by
  intro l
  induction l with
  | nil =>
    intro m n _ _
    cases n <;> simp [listCharCmp]
  | cons a as ih =>
    intro m n h1 h2
    cases m with
    | nil => exact absurd (show listCharCmp (a :: as) [] = .gt from rfl) h1
    | cons b bs =>
      cases n with
      | nil => exact absurd (show listCharCmp (b :: bs) [] = .gt from rfl) h2
      | cons c cs =>
        simp only [listCharCmp, ordering_then_ne_gt] at h1 h2 ⊢
        rcases h1 with h1 | ⟨h1e, h1r⟩
        · rcases h2 with h2 | ⟨h2e, h2r⟩
          · exact Or.inl (charCmp_lt_trans a b c h1 h2)
          · rw [charCmp_eq_eq] at h2e
            rw [← h2e]
            exact Or.inl h1
        · rw [charCmp_eq_eq] at h1e
          subst h1e
          rcases h2 with h2 | ⟨h2e, h2r⟩
          · exact Or.inl h2
          · rw [charCmp_eq_eq] at h2e
            subst h2e
            exact Or.inr ⟨charCmp_eq_eq.mpr rfl, ih bs cs h1r h2r⟩

theorem listCharCmp_swap : ∀ (l m : List Char),
    listCharCmp l m = (listCharCmp m l).swap := by
  intro l
  induction l with
  | nil =>
    intro m
    cases m <;> rfl
  | cons a as ih =>
    intro m
    cases m with
    | nil => rfl
    | cons b bs =>
      simp only [listCharCmp, ordering_then_swap, ← charCmp_swap, ← ih]

theorem optionCmp_eq_eq {cmp : α → α → Ordering}
    (hcmp : ∀ a b, cmp a b = .eq ↔ a = b) (o p : Option α) :
    optionCmp cmp o p = .eq ↔ o = p := by
  cases o <;> cases p <;> simp [optionCmp, hcmp]

theorem optionCmp_lt_trans {cmp : α → α → Ordering}
    (htr : ∀ a b c, cmp a b = .lt → cmp b c = .lt → cmp a c = .lt)
    (o p q : Option α) :
    optionCmp cmp o p = .lt → optionCmp cmp p q = .lt →
      optionCmp cmp o q = .lt := by
  intro h1 h2
  cases o <;> cases p <;> cases q <;>
    simp only [optionCmp] at h1 h2 ⊢ <;>
    first
      | rfl
      | exact absurd h1 (by decide)
      | exact absurd h2 (by decide)
      | exact htr _ _ _ h1 h2

theorem optionCmp_ne_gt_trans {cmp : α → α → Ordering}
    (htr : ∀ a b c, cmp a b ≠ .gt → cmp b c ≠ .gt → cmp a c ≠ .gt)
    (o p q : Option α) :
    optionCmp cmp o p ≠ .gt → optionCmp cmp p q ≠ .gt →
      optionCmp cmp o q ≠ .gt := by
  intro h1 h2
  cases o <;> cases p <;> cases q <;>
    simp only [optionCmp] at h1 h2 ⊢ <;>
    first
      | decide
      | exact absurd rfl h1
      | exact absurd rfl h2
      | exact htr _ _ _ h1 h2

theorem optionCmp_swap {cmp : α → α → Ordering}
    (hsw : ∀ a b, cmp a b = (cmp b a).swap) (o p : Option α) :
    optionCmp cmp o p = (optionCmp cmp p o).swap := by
  cases o <;> cases p
  · rfl
  · rfl
  · rfl
  · exact hsw _ _

theorem fileCmp_swap (a b : ContentFile) : fileCmp a b = (fileCmp b a).swap := by
  unfold fileCmp
  rw [optionCmp_swap listCharCmp_swap a.title_id b.title_id,
    optionCmp_swap natCmp_swap a.version b.version,
    listCharCmp_swap a.name b.name, ← ordering_then_swap, ← ordering_then_swap]

theorem fileLe_trans (a b c : ContentFile) :
    fileLe a b → fileLe b c → fileLe a c := by
  intro h1 h2
  unfold fileLe fileCmp at h1 h2 ⊢
  rw [ordering_then_ne_gt] at h1 h2 ⊢
  have heqT := optionCmp_eq_eq (@listCharCmp_eq_eq)
  have heqV := optionCmp_eq_eq (@natCmp_eq_eq)
  rcases h1 with h1 | ⟨h1e, h1r⟩
  · rcases h2 with h2 | ⟨h2e, h2r⟩
    · exact Or.inl (optionCmp_lt_trans listCharCmp_lt_trans _ _ _ h1 h2)
    · rw [← (heqT _ _).mp h2e]
      exact Or.inl h1
  · have hab := (heqT _ _).mp h1e
    rcases h2 with h2 | ⟨h2e, h2r⟩
    · rw [hab]
      exact Or.inl h2
    · have hbc := (heqT _ _).mp h2e
      refine Or.inr ⟨by rw [hab, hbc]; exact (heqT _ _).mpr rfl, ?_⟩
      rw [ordering_then_ne_gt] at h1r h2r ⊢
      rcases h1r with h1v | ⟨h1ve, h1n⟩
      · rcases h2r with h2v | ⟨h2ve, h2n⟩
        · exact Or.inl
            (optionCmp_lt_trans (fun x y z => natCmp_lt_trans x y z) _ _ _ h1v h2v)
        · rw [← (heqV _ _).mp h2ve]
          exact Or.inl h1v
      · have habv := (heqV _ _).mp h1ve
        rcases h2r with h2v | ⟨h2ve, h2n⟩
        · rw [habv]
          exact Or.inl h2v
        · have hbcv := (heqV _ _).mp h2ve
          refine Or.inr ⟨by rw [habv, hbcv]; exact (heqV _ _).mpr rfl, ?_⟩
          exact listCharCmp_ne_gt_trans _ _ _ h1n h2n

theorem fileLe_total (a b : ContentFile) : fileLe a b ∨ fileLe b a := by
  unfold fileLe
  by_cases h : fileCmp a b = .gt
  · right
    rw [fileCmp_swap] at h
    cases hc : fileCmp b a <;> rw [hc] at h
    · simp [hc]
    · simp [hc]
    · exact absurd h (by decide)
  · exact Or.inl h

/-! ## C5: the title map agrees with a filter over the sorted files -/

theorem titlesLookup_insert_self (m : List (List Char × List Nat))
    (k : List Char) (i : Nat) :
    titlesLookup (titlesInsert m k i) k =
      some ((titlesLookup m k).getD [] ++ [i]) := by
  induction m with
  | nil => simp [titlesInsert, titlesLookup]
  | cons p rest ih =>
    rcases p with ⟨k2, is⟩
    by_cases hk : k2 = k
    · subst hk
      simp [titlesInsert, titlesLookup]
    · simp [titlesInsert, titlesLookup, hk, ih]

theorem titlesLookup_insert_other (m : List (List Char × List Nat))
    {k k2 : List Char} (i : Nat) (h : k2 ≠ k) :
    titlesLookup (titlesInsert m k i) k2 = titlesLookup m k2 := by
  have hne : ¬ k = k2 := fun he => h he.symm
  induction m with
  | nil => simp [titlesInsert, titlesLookup, hne]
  | cons p rest ih =>
    rcases p with ⟨k3, is⟩
    by_cases hk : k3 = k
    · subst hk
      simp [titlesInsert, titlesLookup, hne]
    · simp [titlesInsert, titlesLookup, hk, ih]

theorem buildTitles_lookup :
    ∀ (fs : List ContentFile) (i : Nat) (m : List (List Char × List Nat))
      (k : List Char),
      titlesLookup (buildTitles i fs m) k =
        if picksFrom i fs k = [] then titlesLookup m k
        else some ((titlesLookup m k).getD [] ++ picksFrom i fs k) := by
  intro fs
  induction fs with
  | nil =>
    intro i m k
    simp [buildTitles, picksFrom]
  | cons f rest ih =>
    intro i m k
    rcases hf : f.title_id with _ | t
    · rw [show buildTitles i (f :: rest) m = buildTitles (i + 1) rest m from by
        simp [buildTitles, hf]]
      rw [show picksFrom i (f :: rest) k = picksFrom (i + 1) rest k from by
        simp [picksFrom, hf]]
      exact ih (i + 1) m k
    · by_cases hk : t = k
      · subst hk
        rw [show buildTitles i (f :: rest) m =
            buildTitles (i + 1) rest (titlesInsert m t i) from by
          simp [buildTitles, hf]]
        rw [show picksFrom i (f :: rest) t = i :: picksFrom (i + 1) rest t
          from by simp [picksFrom, hf]]
        rw [ih (i + 1) (titlesInsert m t i) t]
        by_cases hp : picksFrom (i + 1) rest t = []
        · rw [if_pos hp, if_neg (by simp), hp, titlesLookup_insert_self]
        · rw [if_neg hp, if_neg (by simp), titlesLookup_insert_self]
          simp
      · rw [show buildTitles i (f :: rest) m =
            buildTitles (i + 1) rest (titlesInsert m t i) from by
          simp [buildTitles, hf]]
        rw [show picksFrom i (f :: rest) k = picksFrom (i + 1) rest k from by
          simp [picksFrom, hf, hk]]
        rw [ih (i + 1) (titlesInsert m t i) k,
          titlesLookup_insert_other m i (fun he => hk he.symm)]

theorem picksFrom_filterMap :
    ∀ (fs : List ContentFile) (i : Nat) (g : List ContentFile) (k : List Char),
      g.drop i = fs →
      (picksFrom i fs k).filterMap (fun j => g[j]?) =
        fs.filter (fun f => f.title_id = some k) := by
  intro fs
  induction fs with
  | nil =>
    intro i g k _
    simp [picksFrom]
  | cons f rest ih =>
    intro i g k hdrop
    have hget : g[i]? = some f := by
      have h0 : (g.drop i)[0]? = some f := by
        rw [hdrop]
        simp
      rw [List.getElem?_drop] at h0
      simpa using h0
    have hdrop2 : g.drop (i + 1) = rest := by
      rw [← List.tail_drop, hdrop]
      rfl
    simp only [picksFrom, List.filter_cons]
    by_cases hf : f.title_id = some k
    · rw [if_pos hf, if_pos (by simp [hf])]
      simp only [List.filterMap_cons, hget]
      rw [ih (i + 1) g k hdrop2]
    · rw [if_neg hf, if_neg (by simp [hf])]
      exact ih (i + 1) g k hdrop2

/-- C5: `Catalog::from_files` emits a permutation of its input sorted by
the total `(title_id, version, name)` comparator, `None` ordering strictly
before any concrete title id or version; `versions` — queried with a
canonical uppercase id — returns exactly the files carrying that id, in
catalog order; an id with no files gives the empty result rather than an
error. -/
theorem c5_catalog_sorted_versions (fs : List ContentFile) :
    ((Catalog.from_files fs).files).Perm fs ∧
    List.Pairwise fileLe (Catalog.from_files fs).files ∧
    (∀ f g, fileLe f g ∨ fileLe g f) ∧
    (∀ f g, f.title_id = none → ∀ t, g.title_id = some t →
      fileCmp f g = .lt) ∧
    (∀ f g, f.title_id = g.title_id → f.version = none →
      ∀ v, g.version = some v → fileCmp f g = .lt) ∧
    (∀ q, q.map Char.toUpper = q →
      (((Catalog.from_files fs).versions q).map TitleVersions.files).getD [] =
        (Catalog.from_files fs).files.filter
          (fun f => f.title_id = some q)) := by
  refine ⟨?_, ?_, fileLe_total, ?_, ?_, ?_⟩
  · simpa [Catalog.from_files] using List.perm_insertionSort fileLe fs
  · have hs := @List.sorted_insertionSort ContentFile fileLe _
      ⟨fileLe_total⟩ ⟨fileLe_trans⟩ fs
    simpa [Catalog.from_files] using hs
  · intro f g hf t hg
    unfold fileCmp
    rw [hf, hg]
    rfl
  · intro f g ht hv v hgv
    unfold fileCmp
    rw [ht, hv, hgv,
      show optionCmp listCharCmp g.title_id g.title_id = .eq from
        (optionCmp_eq_eq (@listCharCmp_eq_eq) _ _).mpr rfl]
    rfl
  · intro q hq
    have hlook := buildTitles_lookup (List.insertionSort fileLe fs) 0 [] q
    have hpf := picksFrom_filterMap (List.insertionSort fileLe fs) 0
      (List.insertionSort fileLe fs) q (by simp)
    simp only [Catalog.from_files, Catalog.versions, hq]
    by_cases hp : picksFrom 0 (List.insertionSort fileLe fs) q = []
    · rw [hlook, if_pos hp]
      rw [hp] at hpf
      simp only [List.filterMap_nil] at hpf
      simp [titlesLookup, ← hpf]
    · rw [hlook, if_neg hp]
      simp only [titlesLookup, Option.getD_none, List.nil_append,
        Option.map_some', Option.getD_some]
      exact hpf

/-- Witness for C5 at a two-record catalog sharing one title id. -/
theorem c5_catalog_witness :
    (((Catalog.from_files [sampleUpdate, sampleBase]).versions
        "0100ABCD12340000".data).map TitleVersions.files).getD [] =
      (Catalog.from_files [sampleUpdate, sampleBase]).files.filter
        (fun f => f.title_id = some "0100ABCD12340000".data) :=
  (c5_catalog_sorted_versions [sampleUpdate, sampleBase]).2.2.2.2.2
    "0100ABCD12340000".data (by decide)

/-! ## C9: scanner-tick failure isolation -/

/-- C9: a failed scan leaves the shared catalog exactly as it was; a
successful scan replaces it wholesale with a catalog built from the new
file list alone — independent of the previous contents, its files being a
permutation of the scanned files. -/
theorem c9_scanner_tick_isolation (cat cat2 : Catalog) (e : ScanError)
    (fs : List ContentFile) :
    scannerTick cat (.error e) = cat ∧
    scannerTick cat (.ok fs) = Catalog.from_files fs ∧
    scannerTick cat (.ok fs) = scannerTick cat2 (.ok fs) ∧
    ((scannerTick cat (.ok fs)).files).Perm fs := by
  refine ⟨rfl, rfl, rfl, ?_⟩
  simpa [scannerTick, Catalog.from_files] using List.perm_insertionSort fileLe fs

end Ownfoil
